import Mathlib

/-!
Verification of the escaping engine: a configurable, round-trippable
textual escaping library.  Strings are modelled as lists of Unicode
scalar values (the host language iterates strings by character); the
byte-offset based query is modelled over lists of bytes.  All
definitions are translated from the source.
-/

namespace Escaping

/-- The escape configuration: marker character, set of characters that
trigger escaping, ordered translation table, optional generic
predicate. -/
structure EscapeCfg where
  escape_char : Char
  escape : List Char
  tr : List (Char × List Char)
  generic : Option (Char → Bool)

/-- Result of the borrow-or-own returning operations. -/
inductive CowStr where
  | borrowed (s : List Char)
  | owned (s : List Char)
deriving DecidableEq

/-- Underlying character sequence of a borrow-or-own result. -/
def CowStr.value : CowStr → List Char
  | .borrowed s => s
  | .owned s => s

/-- First translation entry whose key equals the character, as in the
find_map over the translation table in escape_to. -/
def trFind (tr : List (Char × List Char)) (c : Char) : Option (List Char) :=
  match tr with
  | [] => none
  | (k, e) :: rest => if c = k then some e else trFind rest c

/-- Output of the encoder for a single character: a character of the
escaped set becomes the marker plus its translation (or itself), a
character accepted by the generic predicate becomes the marker plus
the formatted sequence, anything else passes through.  The numeric
branch reproduces the format string used in the source, which writes
the characters u, open brace, 0, x, the lowercase hex digits of the
code point, close brace. -/
def escapeCharOut (cfg : EscapeCfg) (c : Char) : List Char :=
  if cfg.escape.contains c then
    cfg.escape_char :: (match trFind cfg.tr c with
      | some e => e
      | none => [c])
  else
    match cfg.generic with
    | some g =>
      if g c then
        cfg.escape_char :: 'u' :: '{' :: '0' :: 'x' :: (Nat.toDigits 16 c.toNat ++ ['}'])
      else [c]
    | none => [c]

/-- Escape the string into an output buffer: per-character encoding,
concatenated in order. -/
def escape_to (cfg : EscapeCfg) (s : List Char) : List Char :=
  s.flatMap (escapeCharOut cfg)

/-- Escape the string, or return it unmodified (borrowed) when no
character of the input lies in the escaped set. -/
def escape (cfg : EscapeCfg) (s : List Char) : CowStr :=
  let to_escape := s.countP fun c => cfg.escape.contains c
  if to_escape = 0 then .borrowed s else .owned (escape_to cfg s)

/-- First translation entry whose target is a prefix of the remaining
input; returns the decoded character and the input after the target. -/
def trMatch (tr : List (Char × List Char)) (s : List Char) : Option (Char × List Char) :=
  match tr with
  | [] => none
  | (v, k) :: rest => if k.isPrefixOf s then some (v, s.drop k.length) else trMatch rest s

/-- Position of the first closing brace. -/
def findBrace : List Char → Option Nat
  | [] => none
  | c :: rest => if c = '}' then some 0 else (findBrace rest).map (· + 1)

/-- Decimal digit accumulation used by the u32 parser. -/
def parseDigitsVal (s : List Char) : Nat :=
  s.foldl (fun a c => a * 10 + (c.toNat - 48)) 0

/-- The standard u32 string parser: optional leading plus sign, then a
nonempty run of decimal digits, rejecting values that overflow 32
bits. -/
def parseU32 (s : List Char) : Option Nat :=
  let digs := match s with
    | '+' :: t => t
    | t => t
  if digs.isEmpty then none
  else if digs.all Char.isDigit then
    let n := parseDigitsVal digs
    if n < 4294967296 then some n else none
  else none

/-- char::from_u32: valid Unicode scalar values only. -/
def charFromU32 (n : Nat) : Option Char :=
  if n < 55296 ∨ (57343 < n ∧ n < 1114112) then some (Char.ofNat n) else none

/-- parse_unicode_escape_seq from the decoder: an input starting with
u and an open brace, a closing brace somewhere after, the characters
between parsed as a u32, converted to a character; returns the decoded
character and the input after the closing brace. -/
def parse_unicode_escape_seq (s : List Char) : Option (Char × List Char) :=
  match s with
  | [] => none
  | [_] => none
  | c0 :: c1 :: rest =>
    if c0 = 'u' ∧ c1 = '{' then
      match findBrace rest with
      | none => none
      | some p =>
        match parseU32 (rest.take p) with
        | none => none
        | some n =>
          match charFromU32 n with
          | none => none
          | some ch => some (ch, rest.drop (p + 1))
    else none

/-- Fuel-indexed decoder loop.  Each step consumes at least one input
character, so fuel equal to the input length computes the full
decode.  On encountering the escape character in unescaped state the
marker is consumed; the following position is then matched against the
translation targets, then against a numeric escape sequence, and
otherwise passed through literally. -/
def unescapeFuel (cfg : EscapeCfg) : Nat → List Char → List Char
  | _, [] => []
  | 0, _ :: _ => []
  | fuel + 1, c :: rest =>
    if c = cfg.escape_char then
      match rest with
      | [] => []
      | d :: rest2 =>
        match trMatch cfg.tr (d :: rest2) with
        | some (v, rem) => v :: unescapeFuel cfg fuel rem
        | none =>
          match parse_unicode_escape_seq (d :: rest2) with
          | some (ch, rem) => ch :: unescapeFuel cfg fuel rem
          | none => d :: unescapeFuel cfg fuel rest2
    else c :: unescapeFuel cfg fuel rest

/-- Unescape the string into an output buffer. -/
def unescape_to (cfg : EscapeCfg) (s : List Char) : List Char :=
  unescapeFuel cfg s.length s

/-- Unescape the string, or return it unmodified (borrowed) when it
does not contain the escape character. -/
def unescape (cfg : EscapeCfg) (s : List Char) : CowStr :=
  if s.contains cfg.escape_char then .owned (unescape_to cfg s) else .borrowed s

/-- The byte-level character-boundary test: offset zero, one past the
end, or any byte that is not a UTF-8 continuation byte. -/
def is_char_boundary (b : List Nat) (i : Nat) : Bool :=
  if i = 0 then true
  else
    match b[i]? with
    | none => i == b.length
    | some x => decide (x < 128 ∨ 192 ≤ x)

/-- Backward scan of is_escaped: starting just below offset i, flip
the result while the byte is a character boundary equal to the escape
byte, stopping at the first byte that is not. -/
def escRun (ec : Nat) (b : List Nat) : Nat → Bool → Bool
  | 0, res => res
  | j + 1, res =>
    if is_char_boundary b j && b.getD j 0 == ec then escRun ec b j (!res) else res

/-- True when the character at byte offset i sits inside an escape:
unconditionally when i is not a character boundary, otherwise by the
parity of the backward scan over escape-character bytes. -/
def is_escaped (c : Char) (b : List Nat) (i : Nat) : Bool :=
  !(is_char_boundary b i) || escRun (c.toNat % 256) b i false

/-- Modelled from the spec: length of the contiguous run of
escape-character bytes immediately preceding byte offset i. -/
def precRunLen (ec : Nat) (b : List Nat) : Nat → Nat
  | 0 => 0
  | j + 1 => if b.getD j 0 = ec then precRunLen ec b j + 1 else 0

/-- The split predicate with its threaded escaped flag: returns the
split decision together with the updated flag.  On the separator the
decision is the negation of the flag and the flag is left unchanged;
on any other character the decision is false and the flag becomes true
exactly when the character is the unescaped escape character. -/
def is_sep (ec : Char) (esc : Bool) (c sep : Char) : Bool × Bool :=
  if c = sep then (!esc, esc) else (false, c == ec && !esc)

/-- Split loop: a character on which the predicate fires ends the
current segment; every produced segment keeps its characters
verbatim. -/
def splitAux (ec sep : Char) : List Char → Bool → List Char → List (List Char)
  | [], _, acc => [acc.reverse]
  | c :: rest, esc, acc =>
    let r := is_sep ec esc c sep
    if r.1 then acc.reverse :: splitAux ec sep rest r.2 []
    else splitAux ec sep rest r.2 (c :: acc)

/-- Split the string on separators that the escape-aware predicate
reports as unescaped. -/
def split (ec : Char) (s : List Char) (sep : Char) : List (List Char) :=
  splitAux ec sep s false []

/-- The ascii test on a character: code point at most 127. -/
def is_ascii (c : Char) : Bool := c.toNat ≤ 127

/-- Inner duplicate scan of the runtime validator: entry i compared
against every other entry, first conflict reported. -/
def dupCheckAux (i : Nat) (c : Char) (s : List Char) : Nat → List (Char × List Char) → Option String
  | _, [] => none
  | j, (c1, s1) :: rest =>
    if i ≠ j then
      if c = c1 then some "duplicate translation key"
      else if s = s1 then some "duplicate translation target"
      else dupCheckAux i c s (j + 1) rest
    else dupCheckAux i c s (j + 1) rest

/-- Per-entry checks of the runtime validator, in source order. -/
def trEntryCheck (escape_char : Char) (escape : List Char) (tr : List (Char × List Char))
    (i : Nat) (c : Char) (s : List Char) : Option String :=
  if c = escape_char then some "you cannot translate the escape char"
  else if s.length = 0 then some "translation targets may not be empty"
  else if ¬ (s.all is_ascii = true) then some "translation targets must be ascii"
  else if s.head? = some 'u' then some "translation targets must not start with u"
  else if s.contains escape_char then some "translation targets may not contain the escape char"
  else if ¬ (escape.contains c = true) then some "the escape array must contain every translation key"
  else dupCheckAux i c s 0 tr

/-- Indexed iteration over the translation entries. -/
def trChecksAux (escape_char : Char) (escape : List Char) (tr : List (Char × List Char)) :
    Nat → List (Char × List Char) → Option String
  | _, [] => none
  | i, (c, s) :: rest =>
    match trEntryCheck escape_char escape tr i c s with
    | some e => some e
    | none => trChecksAux escape_char escape tr (i + 1) rest

/-- The runtime constructor: validates the configuration and returns
it, or returns the first violated invariant as an error. -/
def new (escape_char : Char) (escape : List Char) (tr : List (Char × List Char))
    (generic : Option (Char → Bool)) : Except String EscapeCfg :=
  if ¬ (is_ascii escape_char = true) then .error "the escape char must be ascii"
  else if ¬ (escape.contains escape_char = true) then
    .error "the escape slice must contain the escape character"
  else
    match trChecksAux escape_char escape tr 0 tr with
    | some e => .error e
    | none => .ok ⟨escape_char, escape, tr, generic⟩

/-- UTF-8 encoding of one scalar value. -/
def utf8EncodeChar (c : Char) : List Nat :=
  let n := c.toNat
  if n < 128 then [n]
  else if n < 2048 then [192 + n / 64, 128 + n % 64]
  else if n < 65536 then [224 + n / 4096, 128 + n / 64 % 64, 128 + n % 64]
  else [240 + n / 262144, 128 + n / 4096 % 64, 128 + n / 64 % 64, 128 + n % 64]

/-- Byte sequence of a string. -/
def strBytes (s : List Char) : List Nat :=
  s.flatMap utf8EncodeChar

/-- str_byte_eq of the const validator: equal lengths and equal bytes. -/
def str_byte_eq (s0 s1 : List Char) : Bool :=
  strBytes s0 == strBytes s1

/-- str_contains of the const validator: some byte equals the given one. -/
def str_contains (s : List Char) (b : Nat) : Bool :=
  (strBytes s).contains b

/-- Bitwise complement of a byte. -/
def u8Not (b : Nat) : Nat := 255 - b

/-- Inner duplicate asserts of the const validator: entry i against
every other entry, keys distinct and targets not byte-equal. -/
def constDupOkAux (i : Nat) (c : Char) (s : List Char) : Nat → List (Char × List Char) → Bool
  | _, [] => true
  | j, (c1, s1) :: rest =>
    (if i = j then true else (c1 != c) && !(str_byte_eq s1 s)) && constDupOkAux i c s (j + 1) rest

/-- Per-entry asserts of the const validator, in source order.  The
letter-u assert is reproduced exactly as written in the source: the
bitwise complement of the first byte of the target compared against
the byte value of the letter u (117); an empty target makes the index
expression abort. -/
def constEntryOk (escape_char : Char) (tr : List (Char × List Char))
    (i : Nat) (c : Char) (s : List Char) : Bool :=
  (c != escape_char) &&
  decide (0 < (strBytes s).length) &&
  ((strBytes s).all fun b => decide (b < 128)) &&
  (match strBytes s with
   | [] => false
   | b :: _ => u8Not b != 117) &&
  !(str_contains s (escape_char.toNat % 256)) &&
  constDupOkAux i c s 0 tr

/-- Indexed iteration over the translation entries of the const
validator. -/
def constTrOkAux (escape_char : Char) (tr : List (Char × List Char)) :
    Nat → List (Char × List Char) → Bool
  | _, [] => true
  | i, (c, s) :: rest => constEntryOk escape_char tr i c s && constTrOkAux escape_char tr (i + 1) rest

/-- Success predicate of the compile-time constructor const_new: true
exactly when every assert in the const evaluation passes, so that
compilation succeeds. -/
def const_new_ok (escape_char : Char) (escape : List Char) (tr : List (Char × List Char)) : Bool :=
  is_ascii escape_char &&
  escape.contains escape_char &&
  constTrOkAux escape_char tr 0 tr &&
  tr.all fun p => escape.contains p.1

/-- A minimal valid configuration with a generic predicate escaping
control characters. -/
def cfgG : EscapeCfg := ⟨'\\', ['\\'], [], some fun c => decide (c.toNat < 32)⟩

/-- A minimal valid configuration without translations or generic
predicate. -/
def cfg0 : EscapeCfg := ⟨'\\', ['\\'], [], none⟩

/-- A valid configuration whose escape character is the closing
brace. -/
def cfgB : EscapeCfg := ⟨'}', ['}'], [], none⟩

/-- Byte sequence of the example text from the specification: the
characters f o o, space, backslash, open bracket, e, backslash, close
bracket, space, b a r, backslash, n. -/
def fooB : List Nat := [102, 111, 111, 32, 92, 91, 101, 92, 93, 32, 98, 97, 114, 92, 110]

/-- Modelled from the spec: the construction invariants of a
configuration — ascii escape character contained in the escaped set,
every translation key in the escaped set and distinct from the escape
character, translation targets nonempty, ascii, not starting with the
letter u, free of the escape character, and translations pairwise
distinct by key and by target. -/
def NewInv (escape_char : Char) (escape : List Char) (tr : List (Char × List Char)) : Prop :=
  is_ascii escape_char = true ∧ escape_char ∈ escape ∧
  (∀ p ∈ tr, p.1 ≠ escape_char ∧ p.2 ≠ [] ∧ (∀ ch ∈ p.2, is_ascii ch = true) ∧
    p.2.head? ≠ some 'u' ∧ escape_char ∉ p.2 ∧ p.1 ∈ escape) ∧
  List.Pairwise (fun p q => p.1 ≠ q.1 ∧ p.2 ≠ q.2) tr

theorem trMatch_length_le (tr : List (Char × List Char)) (s : List Char) (v : Char)
    (rem : List Char) (h : trMatch tr s = some (v, rem)) : rem.length ≤ s.length := by
  induction tr with
  | nil => simp [trMatch] at h
  | cons p rest ih =>
    obtain ⟨k, e⟩ := p
    simp only [trMatch] at h
    split at h
    · cases h
      simp
    · exact ih h

theorem trMatch_suffix (tr : List (Char × List Char)) (s : List Char) (v : Char)
    (rem : List Char) (h : trMatch tr s = some (v, rem)) : rem.IsSuffix s := by
  induction tr with
  | nil => simp [trMatch] at h
  | cons p rest ih =>
    obtain ⟨k, e⟩ := p
    simp only [trMatch] at h
    split at h
    · cases h
      exact List.drop_suffix _ _
    · exact ih h

theorem parse_suffix (s : List Char) (ch : Char) (rem : List Char)
    (h : parse_unicode_escape_seq s = some (ch, rem)) : rem.IsSuffix s := by
  match s with
  | [] => simp [parse_unicode_escape_seq] at h
  | [c] => simp [parse_unicode_escape_seq] at h
  | c0 :: c1 :: rest =>
    simp only [parse_unicode_escape_seq] at h
    split at h
    · split at h
      · exact absurd h (by simp)
      · split at h
        · exact absurd h (by simp)
        · split at h
          · exact absurd h (by simp)
          · cases h
            exact (List.drop_suffix _ _).trans ((List.suffix_cons c1 rest).trans
              (List.suffix_cons c0 (c1 :: rest)))
    · exact absurd h (by simp)

theorem parse_length_le (s : List Char) (ch : Char) (rem : List Char)
    (h : parse_unicode_escape_seq s = some (ch, rem)) : rem.length ≤ s.length :=
  (parse_suffix s ch rem h).length_le

/-- C1: the round-trip law fails on the code.  The configuration with
escape character backslash, escaped set containing only backslash, and
a generic predicate for control characters is accepted by the runtime
validator, yet unescaping the escape of the two-character text
backslash, U+0001 does not give the text back: the encoder writes the
numeric sequence with a 0x infix that the decimal decoder cannot
parse, so the decode leaves the seven characters backslash u brace 0 x
1 brace in place of the control character. -/
theorem roundtrip_violated :
    (new '\\' ['\\'] [] (some fun c => decide (c.toNat < 32))).isOk = true ∧
    (unescape cfgG ((escape cfgG ['\\', Char.ofNat 1]).value)).value ≠ ['\\', Char.ofNat 1] := by
  constructor
  · rfl
  · decide

/-- C2: the decoder reads the digits of a numeric escape with the
decimal u32 parser, not as hexadecimal.  Unescaping backslash u brace
1 0 brace gives U+000A (decimal ten), where the claim requires U+0010;
the single-digit example backslash u brace 1 brace gives U+0001 as
claimed because one is the same in both bases. -/
theorem unescape_decimal_not_hex :
    unescape_to cfg0 ['\\', 'u', '{', '1', '0', '}'] = [Char.ofNat 10] ∧
    unescape_to cfg0 ['\\', 'u', '{', '1', '}'] = [Char.ofNat 1] ∧
    Char.ofNat 10 ≠ Char.ofNat 16 := by
  refine ⟨rfl, rfl, by decide⟩

/-- C3: for the character U+0001, accepted by the generic predicate
and outside the escaped set, the buffer encoder emits the marker
followed by u brace 0 x 1 brace — an extra 0x before the hex digits —
not the claimed u brace 1 brace; and the allocating encoder returns
the input borrowed, without consulting the generic predicate at all,
because no character of the input lies in the escaped set. -/
theorem escape_generic_hex_prefix :
    escape_to cfgG [Char.ofNat 1] = ['\\', 'u', '{', '0', 'x', '1', '}'] ∧
    escape cfgG [Char.ofNat 1] = CowStr.borrowed [Char.ofNat 1] := by
  exact ⟨rfl, rfl⟩

/-- C4: the split predicate does not clear the escaped flag on a
separator: seen while the flag is set, the separator is not a split
point but the returned flag is still true.  Consequently in the text
a backslash comma comma b, the second comma is also treated as escaped
and splitting on comma produces a single segment, where the claim
requires a split at the second comma. -/
theorem split_flag_not_cleared :
    is_sep '\\' true ',' ',' = (false, true) ∧
    split '\\' ['a', '\\', ',', ',', 'b'] ',' = [['a', '\\', ',', ',', 'b']] := by
  exact ⟨rfl, rfl⟩

/-- C5: the validators disagree on a translation target that starts
with the letter u.  The runtime validator rejects the target u a b c,
while the const validator accepts it: its assert applies the bitwise
complement to the first byte of the target before comparing with the
byte value of u, and 255 - 117 is never 117, so the assert passes for
every ascii target. -/
theorem const_new_accepts_u_target :
    const_new_ok '\\' ['\\', '\n'] [('\n', ['u', 'a', 'b', 'c'])] = true ∧
    (new '\\' ['\\', '\n'] [('\n', ['u', 'a', 'b', 'c'])] (none : Option (Char → Bool))).isOk
      = false := by
  exact ⟨rfl, rfl⟩

/-- C9: the allocating encoder returns its input unchanged, borrowed,
exactly when no character of the input lies in the escaped set; the
generic predicate plays no part in the decision. -/
theorem escape_borrowed_iff (cfg : EscapeCfg) (s : List Char) :
    escape cfg s = CowStr.borrowed s ↔ ∀ c ∈ s, c ∉ cfg.escape := by
  have hcount : ((s.countP fun c => cfg.escape.contains c) = 0) ↔ ∀ c ∈ s, c ∉ cfg.escape := by
    rw [List.countP_eq_zero]
    exact ⟨fun h c hc => by simpa using h c hc, fun h c hc => by simpa using h c hc⟩
  rw [← hcount]
  simp only [escape]
  by_cases h : (s.countP fun c => cfg.escape.contains c) = 0
  · simp [h]
  · simp [h]

theorem is_char_boundary_le (b : List Nat) (i : Nat) (h : is_char_boundary b i = true) :
    i ≤ b.length := by
  unfold is_char_boundary at h
  split at h
  · omega
  · rcases hx : b[i]? with _ | x <;> rw [hx] at h
    · simp only [beq_iff_eq] at h
      omega
    · by_contra hlt
      rw [List.getElem?_eq_none (by omega)] at hx
      exact absurd hx (by simp)

theorem escRun_parity (ec : Nat) (hec : ec < 128) (b : List Nat) :
    ∀ j, j ≤ b.length → ∀ r : Bool,
      escRun ec b j r = (if Odd (precRunLen ec b j) then !r else r) := by
  intro j
  induction j with
  | zero => intro _ r; simp [escRun, precRunLen]
  | succ j ih =>
    intro hj r
    have hjlt : j < b.length := by omega
    by_cases hb : b.getD j 0 = ec
    · have hbd : is_char_boundary b j = true := by
        unfold is_char_boundary
        split
        · rfl
        · rw [List.getElem?_eq_getElem hjlt]
          rw [List.getD_eq_getElem b 0 hjlt] at hb
          rw [hb]
          simp
          omega
      have hcond : (is_char_boundary b j && b.getD j 0 == ec) = true := by
        rw [hbd, hb]
        simp
      rw [escRun, hcond, if_pos rfl, ih (by omega) (!r)]
      have hpre : precRunLen ec b (j + 1) = precRunLen ec b j + 1 := by
        rw [precRunLen, if_pos hb]
      rw [hpre]
      by_cases ho : Odd (precRunLen ec b j)
      · simp [ho, Nat.odd_add_one]
      · simp [ho, Nat.odd_add_one]
    · have hcond : (is_char_boundary b j && b.getD j 0 == ec) = false := by
        rw [beq_eq_false_iff_ne.mpr hb, Bool.and_false]
      rw [escRun, hcond]
      have hpre : precRunLen ec b (j + 1) = 0 := by
        rw [precRunLen, if_neg hb]
      rw [hpre]
      simp [Nat.odd_iff]

/-- C7: for an ascii escape character, the escaped-position query
answers true when the offset is not a character boundary, and
otherwise answers by the parity of the contiguous run of
escape-character bytes immediately preceding the offset. -/
theorem is_escaped_parity (c : Char) (h : c.toNat < 128) (b : List Nat) (i : Nat) :
    is_escaped c b i = true ↔
      (is_char_boundary b i = false ∨ Odd (precRunLen c.toNat b i)) := by
  have hmod : c.toNat % 256 = c.toNat := Nat.mod_eq_of_lt (by omega)
  unfold is_escaped
  rw [hmod]
  cases hbd : is_char_boundary b i with
  | false => simp
  | true =>
    have hle := is_char_boundary_le b i hbd
    rw [escRun_parity c.toNat h b i hle false]
    by_cases ho : Odd (precRunLen c.toNat b i)
    · simp [ho]
    · simp [ho]

theorem is_escaped_parity_witness : is_escaped '\\' fooB 5 = true :=
  (is_escaped_parity '\\' (by decide) fooB 5).mpr (by decide)

theorem unescapeFuel_nil (cfg : EscapeCfg) (f : Nat) : unescapeFuel cfg f [] = [] := by
  cases f <;> rfl

theorem unescapeFuel_congr (cfg : EscapeCfg) :
    ∀ f1 f2 s, s.length ≤ f1 → s.length ≤ f2 →
      unescapeFuel cfg f1 s = unescapeFuel cfg f2 s := by
  intro f1
  induction f1 with
  | zero =>
    intro f2 s h1 _
    have hs : s = [] := List.eq_nil_of_length_eq_zero (by omega)
    subst hs
    rw [unescapeFuel_nil, unescapeFuel_nil]
  | succ f1 ih =>
    intro f2 s h1 h2
    cases s with
    | nil => rw [unescapeFuel_nil, unescapeFuel_nil]
    | cons c rest =>
      cases f2 with
      | zero => simp at h2
      | succ f2 =>
        simp only [List.length_cons] at h1 h2
        simp only [unescapeFuel]
        by_cases hc : c = cfg.escape_char
        · simp only [if_pos hc]
          cases rest with
          | nil => rfl
          | cons d rest2 =>
            simp only [List.length_cons] at h1 h2
            rcases htr : trMatch cfg.tr (d :: rest2) with _ | ⟨v, rem⟩
            · simp only [htr]
              rcases hpu : parse_unicode_escape_seq (d :: rest2) with _ | ⟨ch, rem⟩
              · simp only [hpu]
                rw [ih f2 rest2 (by omega) (by omega)]
              · simp only [hpu]
                have hlen := parse_length_le (d :: rest2) ch rem hpu
                simp only [List.length_cons] at hlen
                rw [ih f2 rem (by omega) (by omega)]
            · simp only [htr]
              have hlen := trMatch_length_le cfg.tr (d :: rest2) v rem htr
              simp only [List.length_cons] at hlen
              rw [ih f2 rem (by omega) (by omega)]
        · simp only [if_neg hc]
          rw [ih f2 rest (by omega) (by omega)]

theorem unescapeFuel_length_le (cfg : EscapeCfg) :
    ∀ f s, (unescapeFuel cfg f s).length ≤ s.length := by
  intro f
  induction f with
  | zero =>
    intro s
    cases s <;> simp [unescapeFuel]
  | succ f ih =>
    intro s
    cases s with
    | nil => simp [unescapeFuel_nil]
    | cons c rest =>
      simp only [unescapeFuel]
      by_cases hc : c = cfg.escape_char
      · simp only [if_pos hc]
        cases rest with
        | nil => simp
        | cons d rest2 =>
          rcases htr : trMatch cfg.tr (d :: rest2) with _ | ⟨v, rem⟩
          · simp only [htr]
            rcases hpu : parse_unicode_escape_seq (d :: rest2) with _ | ⟨ch, rem⟩
            · simp only [hpu, List.length_cons]
              have := ih rest2
              omega
            · simp only [hpu, List.length_cons]
              have hlen := parse_length_le (d :: rest2) ch rem hpu
              have := ih rem
              simp only [List.length_cons] at hlen
              omega
          · simp only [htr, List.length_cons]
            have hlen := trMatch_length_le cfg.tr (d :: rest2) v rem htr
            have := ih rem
            simp only [List.length_cons] at hlen
            omega
      · simp only [if_neg hc, List.length_cons]
        have := ih rest
        omega

theorem escapeCharOut_length_pos (cfg : EscapeCfg) (c : Char) :
    1 ≤ (escapeCharOut cfg c).length := by
  unfold escapeCharOut
  split
  · simp
  · split
    · split <;> simp
    · simp

theorem escape_to_length_ge (cfg : EscapeCfg) (s : List Char) :
    s.length ≤ (escape_to cfg s).length := by
  induction s with
  | nil => simp [escape_to]
  | cons c rest ih =>
    have h1 := escapeCharOut_length_pos cfg c
    simp only [escape_to, List.flatMap_cons, List.length_append, List.length_cons] at *
    omega

theorem unescape_to_marker_passthrough (cfg : EscapeCfg) (c : Char) (rest : List Char)
    (h1 : trMatch cfg.tr (c :: rest) = none)
    (h2 : parse_unicode_escape_seq (c :: rest) = none) :
    unescape_to cfg (cfg.escape_char :: c :: rest) = c :: unescape_to cfg rest := by
  show unescapeFuel cfg (rest.length + 2) (cfg.escape_char :: c :: rest) = _
  simp only [unescapeFuel, if_pos rfl, h1, h2]
  rw [unescapeFuel_congr cfg (rest.length + 1) rest.length rest (by omega) (le_refl _)]
  rfl

/-- C8: the operations are total over every configuration and every
input of the embedding, with the decoder never producing more
characters than it consumes and the encoder never producing fewer; a
marker followed by a character that matches no translation target and
no numeric escape sequence degrades to a literal pass-through of that
character. -/
theorem unescape_total_lenient (cfg : EscapeCfg) (s : List Char) (c : Char) (rest : List Char)
    (h1 : trMatch cfg.tr (c :: rest) = none)
    (h2 : parse_unicode_escape_seq (c :: rest) = none) :
    (unescape_to cfg s).length ≤ s.length ∧
    s.length ≤ (escape_to cfg s).length ∧
    unescape_to cfg (cfg.escape_char :: c :: rest) = c :: unescape_to cfg rest :=
  ⟨unescapeFuel_length_le cfg s.length s, escape_to_length_ge cfg s,
    unescape_to_marker_passthrough cfg c rest h1 h2⟩

theorem unescape_total_lenient_witness :
    (unescape_to cfg0 ['a']).length ≤ (['a'] : List Char).length ∧
    (['a'] : List Char).length ≤ (escape_to cfg0 ['a']).length ∧
    unescape_to cfg0 (cfg0.escape_char :: 'x' :: []) = 'x' :: unescape_to cfg0 [] :=
  unescape_total_lenient cfg0 ['a'] 'x' [] rfl rfl

theorem dupCheckAux_eq_none_iff (i : Nat) (c : Char) (s : List Char) :
    ∀ (rest : List (Char × List Char)) (j : Nat),
      dupCheckAux i c s j rest = none ↔
        ∀ (t : Nat) (ht : t < rest.length), j + t ≠ i →
          c ≠ rest[t].1 ∧ s ≠ rest[t].2 := by
  intro rest
  induction rest with
  | nil =>
    intro j
    constructor
    · intro _ t ht
      exact absurd ht (by simp)
    · intro _
      rfl
  | cons p rest ih =>
    intro j
    obtain ⟨c1, s1⟩ := p
    constructor
    · intro h t ht hne
      cases t with
      | zero =>
        simp only [List.getElem_cons_zero]
        have hij : i ≠ j := by omega
        simp only [dupCheckAux, if_pos hij] at h
        by_cases hc : c = c1
        · rw [if_pos hc] at h
          exact absurd h (by simp)
        · rw [if_neg hc] at h
          by_cases hs : s = s1
          · rw [if_pos hs] at h
            exact absurd h (by simp)
          · exact ⟨hc, hs⟩
      | succ t =>
        simp only [List.getElem_cons_succ]
        have hrec : dupCheckAux i c s (j + 1) rest = none := by
          simp only [dupCheckAux] at h
          by_cases hij : i ≠ j
          · rw [if_pos hij] at h
            by_cases hc : c = c1
            · rw [if_pos hc] at h
              exact absurd h (by simp)
            · rw [if_neg hc] at h
              by_cases hs : s = s1
              · rw [if_pos hs] at h
                exact absurd h (by simp)
              · rw [if_neg hs] at h
                exact h
          · rw [if_neg hij] at h
            exact h
        exact (ih (j + 1)).mp hrec t (by simpa using ht) (by omega)
    · intro h
      have hrec : dupCheckAux i c s (j + 1) rest = none :=
        (ih (j + 1)).mpr (fun t ht hne => by
          have := h (t + 1) (by simpa using ht) (by omega)
          simpa using this)
      simp only [dupCheckAux]
      by_cases hij : i ≠ j
      · rw [if_pos hij]
        have h0 := h 0 (by simp) (by omega)
        simp only [List.getElem_cons_zero] at h0
        rw [if_neg h0.1, if_neg h0.2]
        exact hrec
      · rw [if_neg hij]
        exact hrec

theorem trChecksAux_eq_none_iff (ec : Char) (es : List Char) (tr : List (Char × List Char)) :
    ∀ (rest : List (Char × List Char)) (i : Nat),
      trChecksAux ec es tr i rest = none ↔
        ∀ (t : Nat) (ht : t < rest.length),
          trEntryCheck ec es tr (i + t) rest[t].1 rest[t].2 = none := by
  intro rest
  induction rest with
  | nil =>
    intro i
    constructor
    · intro _ t ht
      exact absurd ht (by simp)
    · intro _
      rfl
  | cons p rest ih =>
    intro i
    obtain ⟨c, s⟩ := p
    simp only [trChecksAux]
    cases hE : trEntryCheck ec es tr i c s with
    | some e =>
      constructor
      · intro h
        exact absurd h (by simp)
      · intro h
        have h0 := h 0 (by simp)
        simp only [List.getElem_cons_zero, Nat.add_zero] at h0
        rw [hE] at h0
        exact absurd h0 (by simp)
    | none =>
      rw [ih (i + 1)]
      constructor
      · intro h t ht
        cases t with
        | zero =>
          simp only [List.getElem_cons_zero, Nat.add_zero]
          exact hE
        | succ t =>
          simp only [List.getElem_cons_succ]
          have harith : i + (t + 1) = i + 1 + t := by omega
          rw [harith]
          exact h t (by simpa using ht)
      · intro h t ht
        have := h (t + 1) (by simpa using ht)
        simp only [List.getElem_cons_succ] at this
        have harith : i + (t + 1) = i + 1 + t := by omega
        rw [harith] at this
        exact this

theorem trEntryCheck_eq_none_iff (ec : Char) (es : List Char) (tr : List (Char × List Char))
    (i : Nat) (c : Char) (s : List Char) :
    trEntryCheck ec es tr i c s = none ↔
      (c ≠ ec ∧ s ≠ [] ∧ (∀ ch ∈ s, is_ascii ch = true) ∧ s.head? ≠ some 'u' ∧
        ec ∉ s ∧ c ∈ es ∧ dupCheckAux i c s 0 tr = none) := by
  unfold trEntryCheck
  by_cases h1 : c = ec
  · rw [if_pos h1]
    simp [h1]
  · rw [if_neg h1]
    by_cases h2 : s.length = 0
    · rw [if_pos h2]
      rw [List.length_eq_zero] at h2
      simp [h2]
    · rw [if_neg h2]
      by_cases h3 : s.all is_ascii = true
      · rw [if_neg (not_not_intro h3)]
        by_cases h4 : s.head? = some 'u'
        · rw [if_pos h4]
          simp [h4]
        · rw [if_neg h4]
          by_cases h5 : s.contains ec = true
          · rw [if_pos h5]
            constructor
            · intro h
              exact absurd h (by simp)
            · intro h
              exact absurd (List.elem_iff.mp h5) h.2.2.2.2.1
          · rw [if_neg h5]
            by_cases h6 : es.contains c = true
            · rw [if_neg (not_not_intro h6)]
              constructor
              · intro h
                refine ⟨h1, fun hs => h2 (by simp [hs]), ?_, h4, ?_, ?_, h⟩
                · exact fun ch hch => List.all_eq_true.mp h3 ch hch
                · intro hm
                  exact h5 (List.elem_iff.mpr hm)
                · exact List.elem_iff.mp h6
              · intro h
                exact h.2.2.2.2.2.2
            · rw [if_pos h6]
              constructor
              · intro h
                exact absurd h (by simp)
              · intro h
                exact absurd (List.elem_iff.mpr h.2.2.2.2.2.1) h6
      · rw [if_pos h3]
        constructor
        · intro h
          exact absurd h (by simp)
        · intro h
          exact absurd (List.all_eq_true.mpr (fun ch hch => h.2.2.1 ch hch)) h3

theorem trChecks_none_iff (ec : Char) (es : List Char) (tr : List (Char × List Char)) :
    trChecksAux ec es tr 0 tr = none ↔
      ((∀ p ∈ tr, p.1 ≠ ec ∧ p.2 ≠ [] ∧ (∀ ch ∈ p.2, is_ascii ch = true) ∧
        p.2.head? ≠ some 'u' ∧ ec ∉ p.2 ∧ p.1 ∈ es) ∧
       List.Pairwise (fun p q => p.1 ≠ q.1 ∧ p.2 ≠ q.2) tr) := by
  rw [trChecksAux_eq_none_iff]
  constructor
  · intro h
    constructor
    · intro p hp
      obtain ⟨t, ht, rfl⟩ := List.mem_iff_getElem.mp hp
      have he := (trEntryCheck_eq_none_iff ec es tr (0 + t) tr[t].1 tr[t].2).mp (h t ht)
      exact ⟨he.1, he.2.1, he.2.2.1, he.2.2.2.1, he.2.2.2.2.1, he.2.2.2.2.2.1⟩
    · rw [List.pairwise_iff_getElem]
      intro a b ha hb hab
      have he := (trEntryCheck_eq_none_iff ec es tr (0 + a) tr[a].1 tr[a].2).mp (h a ha)
      exact (dupCheckAux_eq_none_iff (0 + a) tr[a].1 tr[a].2 tr 0).mp
        he.2.2.2.2.2.2 b hb (by omega)
  · intro h t ht
    obtain ⟨hall, hpw⟩ := h
    apply (trEntryCheck_eq_none_iff ec es tr (0 + t) tr[t].1 tr[t].2).mpr
    have hp := hall tr[t] (List.getElem_mem ht)
    refine ⟨hp.1, hp.2.1, hp.2.2.1, hp.2.2.2.1, hp.2.2.2.2.1, hp.2.2.2.2.2, ?_⟩
    apply (dupCheckAux_eq_none_iff (0 + t) tr[t].1 tr[t].2 tr 0).mpr
    intro u hu hne
    rw [List.pairwise_iff_getElem] at hpw
    rcases Nat.lt_or_ge t u with htu | htu
    · exact hpw t u ht hu htu
    · have hut : u < t := by omega
      have hr := hpw u t hu ht hut
      exact ⟨fun hx => hr.1 hx.symm, fun hx => hr.2 hx.symm⟩

/-- C6: the runtime constructor succeeds exactly when every
construction invariant holds; each listed violation makes it return an
error instead. -/
theorem new_ok_iff (ec : Char) (es : List Char) (tr : List (Char × List Char))
    (g : Option (Char → Bool)) :
    (new ec es tr g).isOk = true ↔ NewInv ec es tr := by
  unfold new NewInv
  by_cases ha : is_ascii ec = true
  · rw [if_neg (not_not_intro ha)]
    by_cases hcont : es.contains ec = true
    · rw [if_neg (not_not_intro hcont)]
      cases hm : trChecksAux ec es tr 0 tr with
      | some e =>
        constructor
        · intro h
          simp [Except.isOk, Except.toBool] at h
        · intro h
          have hnone : trChecksAux ec es tr 0 tr = none :=
            (trChecks_none_iff ec es tr).mpr ⟨h.2.2.1, h.2.2.2⟩
          rw [hm] at hnone
          exact absurd hnone (by simp)
      | none =>
        constructor
        · intro _
          have he := (trChecks_none_iff ec es tr).mp hm
          exact ⟨ha, List.elem_iff.mp hcont, he.1, he.2⟩
        · intro _
          rfl
    · rw [if_pos hcont]
      constructor
      · intro h
        simp [Except.isOk, Except.toBool] at h
      · intro h
        exact absurd (List.elem_iff.mpr h.2.1) hcont
  · rw [if_pos ha]
    constructor
    · intro h
      simp [Except.isOk, Except.toBool] at h
    · intro h
      exact absurd h.1 ha

theorem new_ok_iff_witness :
    (new '\\' ['\\', '\n'] [('\n', ['n'])] (none : Option (Char → Bool))).isOk = true :=
  (new_ok_iff '\\' ['\\', '\n'] [('\n', ['n'])] none).mpr
    ⟨by decide, by decide, by decide, by decide⟩

theorem unescape_to_nil (cfg : EscapeCfg) : unescape_to cfg [] = [] := rfl

theorem unescape_to_cons_ne (cfg : EscapeCfg) (c : Char) (rest : List Char)
    (hc : c ≠ cfg.escape_char) :
    unescape_to cfg (c :: rest) = c :: unescape_to cfg rest := by
  show unescapeFuel cfg (rest.length + 1) (c :: rest) = _
  simp only [unescapeFuel, if_neg hc]
  rfl

theorem unescape_to_marker_nil (cfg : EscapeCfg) :
    unescape_to cfg [cfg.escape_char] = [] := by
  show unescapeFuel cfg 1 [cfg.escape_char] = []
  simp [unescapeFuel]

theorem unescape_to_marker_tr (cfg : EscapeCfg) (d : Char) (rest2 : List Char)
    (v : Char) (rem : List Char) (h : trMatch cfg.tr (d :: rest2) = some (v, rem)) :
    unescape_to cfg (cfg.escape_char :: d :: rest2) = v :: unescape_to cfg rem := by
  show unescapeFuel cfg (rest2.length + 2) (cfg.escape_char :: d :: rest2) = _
  simp only [unescapeFuel, if_pos rfl, h]
  have hlen := trMatch_length_le cfg.tr (d :: rest2) v rem h
  simp only [List.length_cons] at hlen
  rw [unescapeFuel_congr cfg (rest2.length + 1) rem.length rem (by omega) (le_refl _)]
  rfl

theorem unescape_to_marker_uni (cfg : EscapeCfg) (d : Char) (rest2 : List Char)
    (ch : Char) (rem : List Char) (h1 : trMatch cfg.tr (d :: rest2) = none)
    (h2 : parse_unicode_escape_seq (d :: rest2) = some (ch, rem)) :
    unescape_to cfg (cfg.escape_char :: d :: rest2) = ch :: unescape_to cfg rem := by
  show unescapeFuel cfg (rest2.length + 2) (cfg.escape_char :: d :: rest2) = _
  simp only [unescapeFuel, if_pos rfl, h1, h2]
  have hlen := parse_length_le (d :: rest2) ch rem h2
  simp only [List.length_cons] at hlen
  rw [unescapeFuel_congr cfg (rest2.length + 1) rem.length rem (by omega) (le_refl _)]
  rfl

theorem trMatch_cons_ec_none (tr : List (Char × List Char)) (ec : Char)
    (h1 : ∀ p ∈ tr, p.2 ≠ []) (h2 : ∀ p ∈ tr, ec ∉ p.2) (l : List Char) :
    trMatch tr (ec :: l) = none := by
  induction tr with
  | nil => rfl
  | cons p rest ih =>
    obtain ⟨v, k⟩ := p
    simp only [trMatch]
    have hk : ¬ (k.isPrefixOf (ec :: l) = true) := by
      intro hpre
      rw [List.isPrefixOf_iff_prefix] at hpre
      cases k with
      | nil => exact h1 (v, []) (by simp) rfl
      | cons a k2 =>
        have ha : a = ec := (List.cons_prefix_cons.mp hpre).1
        exact h2 (v, a :: k2) (by simp) (by simp [ha])
    rw [if_neg hk]
    exact ih (fun p hp => h1 p (List.mem_cons_of_mem _ hp))
      (fun p hp => h2 p (List.mem_cons_of_mem _ hp))

theorem parse_cons_ec_none (ec : Char) (m : Nat) :
    parse_unicode_escape_seq (ec :: List.replicate m ec) = none := by
  cases m with
  | zero => rfl
  | succ m =>
    rw [List.replicate_succ]
    simp only [parse_unicode_escape_seq]
    rw [if_neg]
    intro hcon
    obtain ⟨hu, hbr⟩ := hcon
    rw [hu] at hbr
    exact absurd hbr (by decide)

theorem unescape_to_replicate (cfg : EscapeCfg)
    (h1 : ∀ p ∈ cfg.tr, p.2 ≠ []) (h2 : ∀ p ∈ cfg.tr, cfg.escape_char ∉ p.2) :
    ∀ m, unescape_to cfg (List.replicate m cfg.escape_char) =
      List.replicate (m / 2) cfg.escape_char := by
  intro m
  induction m using Nat.strong_induction_on with
  | _ m ih =>
    match m with
    | 0 => rfl
    | 1 =>
      rw [List.replicate_succ]
      show unescape_to cfg [cfg.escape_char] = _
      rw [unescape_to_marker_nil]
      rfl
    | m + 2 =>
      rw [List.replicate_succ, List.replicate_succ]
      rw [unescape_to_marker_passthrough cfg cfg.escape_char (List.replicate m cfg.escape_char)
        (trMatch_cons_ec_none cfg.tr cfg.escape_char h1 h2 _)
        (parse_cons_ec_none cfg.escape_char m)]
      rw [ih m (by omega)]
      have harith : (m + 2) / 2 = m / 2 + 1 := by omega
      rw [harith, List.replicate_succ]

theorem getLast?_tail_ne (c : Char) (xs : List Char) (ec : Char)
    (h : (c :: xs).getLast? ≠ some ec) : xs.getLast? ≠ some ec := by
  cases xs with
  | nil => simp
  | cons d xs2 => rwa [List.getLast?_cons_cons] at h

theorem getLast?_suffix_ne (l r : List Char) (ec : Char) (hr : r.IsSuffix l)
    (h : l.getLast? ≠ some ec) : r.getLast? ≠ some ec := by
  cases r with
  | nil => simp
  | cons a r2 =>
    obtain ⟨t, rfl⟩ := hr
    rwa [List.getLast?_append_of_ne_nil t (by simp)] at h

theorem isPrefixOf_of_append_replicate (k : List Char) (ec : Char) (hk : ec ∉ k) :
    ∀ (xs : List Char) (m : Nat),
      k.isPrefixOf (xs ++ List.replicate m ec) = true → k.isPrefixOf xs = true := by
  induction k with
  | nil =>
    intro xs m _
    simp [List.isPrefixOf]
  | cons a k2 ih =>
    intro xs m h
    cases xs with
    | nil =>
      exfalso
      rw [List.isPrefixOf_iff_prefix, List.nil_append] at h
      cases m with
      | zero => simp at h
      | succ m =>
        rw [List.replicate_succ] at h
        have ha : a = ec := (List.cons_prefix_cons.mp h).1
        exact hk (by simp [ha])
    | cons b xs2 =>
      rw [List.isPrefixOf_iff_prefix] at h ⊢
      rw [List.cons_append] at h
      obtain ⟨hab, h2⟩ := List.cons_prefix_cons.mp h
      refine List.cons_prefix_cons.mpr ⟨hab, ?_⟩
      rw [← List.isPrefixOf_iff_prefix]
      exact ih (fun hm => hk (List.mem_cons_of_mem a hm)) xs2 m
        (by rw [List.isPrefixOf_iff_prefix]; exact h2)

theorem trMatch_append_replicate (tr : List (Char × List Char)) (ec : Char)
    (h1 : ∀ p ∈ tr, p.2 ≠ []) (h2 : ∀ p ∈ tr, ec ∉ p.2) (xs : List Char) (m : Nat) :
    trMatch tr (xs ++ List.replicate m ec) =
      (trMatch tr xs).map (fun pr => (pr.1, pr.2 ++ List.replicate m ec)) := by
  induction tr with
  | nil => rfl
  | cons p rest ih =>
    obtain ⟨v, k⟩ := p
    simp only [trMatch]
    by_cases hk : k.isPrefixOf xs = true
    · have hk2 : k.isPrefixOf (xs ++ List.replicate m ec) = true := by
        rw [List.isPrefixOf_iff_prefix] at hk ⊢
        exact hk.trans (List.prefix_append xs _)
      rw [if_pos hk2, if_pos hk]
      have hlen : k.length ≤ xs.length :=
        (List.isPrefixOf_iff_prefix.mp hk).length_le
      rw [List.drop_append_of_le_length hlen]
      rfl
    · have hk2 : ¬ (k.isPrefixOf (xs ++ List.replicate m ec) = true) := by
        intro hcon
        exact hk (isPrefixOf_of_append_replicate k ec
          (h2 (v, k) (by simp)) xs m hcon)
      rw [if_neg hk2, if_neg hk]
      exact ih (fun p hp => h1 p (List.mem_cons_of_mem _ hp))
        (fun p hp => h2 p (List.mem_cons_of_mem _ hp))

theorem findBrace_eq_none (ys : List Char) (hy : ∀ c ∈ ys, c ≠ '}') :
    findBrace ys = none := by
  induction ys with
  | nil => rfl
  | cons c rest ih =>
    simp only [findBrace]
    rw [if_neg (hy c (by simp)), ih (fun c hc => hy c (List.mem_cons_of_mem _ hc))]
    rfl

theorem findBrace_append_no_brace (xs ys : List Char) (hy : ∀ c ∈ ys, c ≠ '}') :
    findBrace (xs ++ ys) = findBrace xs := by
  induction xs with
  | nil =>
    rw [List.nil_append, findBrace_eq_none ys hy]
    rfl
  | cons c rest ih =>
    rw [List.cons_append]
    simp only [findBrace]
    by_cases hc : c = '}'
    · rw [if_pos hc, if_pos hc]
    · rw [if_neg hc, if_neg hc, ih]

theorem findBrace_lt_length (l : List Char) (p : Nat) (h : findBrace l = some p) :
    p < l.length := by
  induction l generalizing p with
  | nil => exact absurd h (by simp [findBrace])
  | cons c rest ih =>
    simp only [findBrace] at h
    by_cases hc : c = '}'
    · rw [if_pos hc] at h
      cases h
      simp
    · rw [if_neg hc] at h
      cases hf : findBrace rest with
      | none =>
        rw [hf] at h
        exact absurd h (by simp)
      | some q =>
        rw [hf] at h
        simp at h
        have := ih q hf
        simp only [List.length_cons]
        omega

theorem parse_append_replicate (ec : Char) (hb : ec ≠ '}') (xs : List Char) (m : Nat) :
    parse_unicode_escape_seq (xs ++ List.replicate m ec) =
      (parse_unicode_escape_seq xs).map
        (fun pr => (pr.1, pr.2 ++ List.replicate m ec)) := by
  have hy : ∀ c ∈ List.replicate m ec, c ≠ '}' := by
    intro c hc
    rw [(List.mem_replicate.mp hc).2]
    exact hb
  match xs with
  | [] =>
    rw [List.nil_append]
    show parse_unicode_escape_seq (List.replicate m ec) = none
    match m with
    | 0 => rfl
    | 1 => rfl
    | m + 2 =>
      rw [List.replicate_succ, List.replicate_succ]
      simp only [parse_unicode_escape_seq]
      rw [if_neg]
      intro hcon
      obtain ⟨hu, hbr⟩ := hcon
      rw [hu] at hbr
      exact absurd hbr (by decide)
  | [a] =>
    match m with
    | 0 => rfl
    | m + 1 =>
      rw [List.replicate_succ]
      show parse_unicode_escape_seq (a :: ec :: List.replicate m ec) = none
      simp only [parse_unicode_escape_seq]
      split
      · rename_i hcon
        rw [findBrace_eq_none (List.replicate m ec)
          (fun c hc => hy c (by rw [List.replicate_succ]; exact List.mem_cons_of_mem _ hc))]
      · rfl
  | a :: b :: xs2 =>
    rw [List.cons_append, List.cons_append]
    simp only [parse_unicode_escape_seq]
    by_cases hab : a = 'u' ∧ b = '{'
    · rw [if_pos hab, if_pos hab]
      rw [findBrace_append_no_brace xs2 _ hy]
      cases hf : findBrace xs2 with
      | none => rfl
      | some p =>
        have hp : p < xs2.length := findBrace_lt_length xs2 p hf
        dsimp only
        rw [List.take_append_of_le_length (by omega)]
        cases parseU32 (xs2.take p) with
        | none => rfl
        | some n =>
          dsimp only
          cases charFromU32 n with
          | none => rfl
          | some ch =>
            dsimp only
            rw [List.drop_append_of_le_length (by omega)]
            rfl
    · rw [if_neg hab, if_neg hab]
      rfl

theorem unescape_to_append_replicate (cfg : EscapeCfg)
    (h1 : ∀ p ∈ cfg.tr, p.2 ≠ []) (h2 : ∀ p ∈ cfg.tr, cfg.escape_char ∉ p.2)
    (hb : cfg.escape_char ≠ '}') :
    ∀ (n : Nat) (xs : List Char), xs.length ≤ n →
      xs.getLast? ≠ some cfg.escape_char → ∀ m,
      unescape_to cfg (xs ++ List.replicate m cfg.escape_char) =
        unescape_to cfg xs ++ List.replicate (m / 2) cfg.escape_char := by
  intro n
  induction n with
  | zero =>
    intro xs hlen _ m
    have hxs : xs = [] := List.eq_nil_of_length_eq_zero (by omega)
    subst hxs
    rw [List.nil_append, unescape_to_nil, List.nil_append]
    exact unescape_to_replicate cfg h1 h2 m
  | succ n ih =>
    intro xs hlen hlast m
    cases xs with
    | nil =>
      rw [List.nil_append, unescape_to_nil, List.nil_append]
      exact unescape_to_replicate cfg h1 h2 m
    | cons c xs2 =>
      simp only [List.length_cons] at hlen
      by_cases hc : c = cfg.escape_char
      · subst hc
        cases xs2 with
        | nil => exact absurd (by simp) hlast
        | cons d xs3 =>
          have hlast2 : (d :: xs3).getLast? ≠ some cfg.escape_char := by
            rwa [List.getLast?_cons_cons] at hlast
          simp only [List.length_cons] at hlen
          rw [List.cons_append]
          rcases htr : trMatch cfg.tr (d :: xs3) with _ | ⟨v, rem⟩
          · rcases hpu : parse_unicode_escape_seq (d :: xs3) with _ | ⟨ch, rem⟩
            · have htr2 : trMatch cfg.tr (d :: (xs3 ++ List.replicate m cfg.escape_char))
                  = none := by
                rw [← List.cons_append,
                  trMatch_append_replicate cfg.tr cfg.escape_char h1 h2, htr]
                rfl
              have hpu2 : parse_unicode_escape_seq
                  (d :: (xs3 ++ List.replicate m cfg.escape_char)) = none := by
                rw [← List.cons_append, parse_append_replicate cfg.escape_char hb, hpu]
                rfl
              rw [List.cons_append,
                unescape_to_marker_passthrough cfg d (xs3 ++ List.replicate m cfg.escape_char)
                  htr2 hpu2,
                unescape_to_marker_passthrough cfg d xs3 htr hpu]
              rw [ih xs3 (by omega) (getLast?_tail_ne d xs3 cfg.escape_char hlast2) m]
              rfl
            · have htr2 : trMatch cfg.tr (d :: (xs3 ++ List.replicate m cfg.escape_char))
                  = none := by
                rw [← List.cons_append,
                  trMatch_append_replicate cfg.tr cfg.escape_char h1 h2, htr]
                rfl
              have hpu2 : parse_unicode_escape_seq
                  (d :: (xs3 ++ List.replicate m cfg.escape_char))
                  = some (ch, rem ++ List.replicate m cfg.escape_char) := by
                rw [← List.cons_append, parse_append_replicate cfg.escape_char hb, hpu]
                rfl
              rw [List.cons_append,
                unescape_to_marker_uni cfg d (xs3 ++ List.replicate m cfg.escape_char)
                  ch (rem ++ List.replicate m cfg.escape_char) htr2 hpu2,
                unescape_to_marker_uni cfg d xs3 ch rem htr hpu]
              have hremlen := parse_length_le (d :: xs3) ch rem hpu
              simp only [List.length_cons] at hremlen
              rw [ih rem (by omega)
                (getLast?_suffix_ne (d :: xs3) rem cfg.escape_char
                  (parse_suffix (d :: xs3) ch rem hpu) hlast2) m]
              rfl
          · have htr2 : trMatch cfg.tr (d :: (xs3 ++ List.replicate m cfg.escape_char))
                = some (v, rem ++ List.replicate m cfg.escape_char) := by
              rw [← List.cons_append,
                trMatch_append_replicate cfg.tr cfg.escape_char h1 h2, htr]
              rfl
            rw [List.cons_append,
              unescape_to_marker_tr cfg d (xs3 ++ List.replicate m cfg.escape_char)
                v (rem ++ List.replicate m cfg.escape_char) htr2,
              unescape_to_marker_tr cfg d xs3 v rem htr]
            have hremlen := trMatch_length_le cfg.tr (d :: xs3) v rem htr
            simp only [List.length_cons] at hremlen
            rw [ih rem (by omega)
              (getLast?_suffix_ne (d :: xs3) rem cfg.escape_char
                (trMatch_suffix cfg.tr (d :: xs3) v rem htr) hlast2) m]
            rfl
      · rw [List.cons_append, unescape_to_cons_ne cfg c _ hc, unescape_to_cons_ne cfg c xs2 hc]
        rw [ih xs2 (by omega) (getLast?_tail_ne c xs2 cfg.escape_char hlast) m]
        rfl

/-- C10 (amended): for a validated configuration whose escape
character is not the closing brace, an input ending in an odd-length
run of escape characters unescapes to the same output as the input
without its final character: the final unescaped escape character
produces no output.  (With the closing brace as escape character a
numeric escape can consume part of the trailing run, see the
counterexample.) -/
theorem trailing_escape_dropped (cfg : EscapeCfg)
    (h1 : ∀ p ∈ cfg.tr, p.2 ≠ []) (h2 : ∀ p ∈ cfg.tr, cfg.escape_char ∉ p.2)
    (hb : cfg.escape_char ≠ '}') (xs : List Char)
    (hlast : xs.getLast? ≠ some cfg.escape_char) (m : Nat) (hm : m % 2 = 1) :
    unescape_to cfg (xs ++ List.replicate m cfg.escape_char) =
      unescape_to cfg (xs ++ List.replicate (m - 1) cfg.escape_char) := by
  rw [unescape_to_append_replicate cfg h1 h2 hb xs.length xs (le_refl _) hlast m,
    unescape_to_append_replicate cfg h1 h2 hb xs.length xs (le_refl _) hlast (m - 1)]
  have harith : m / 2 = (m - 1) / 2 := by omega
  rw [harith]

theorem trailing_escape_dropped_witness :
    unescape_to cfg0 (([] : List Char) ++ List.replicate 1 '\\') =
      unescape_to cfg0 (([] : List Char) ++ List.replicate 0 '\\') :=
  trailing_escape_dropped cfg0 (by simp [cfg0]) (by simp [cfg0]) (by decide) []
    (by simp) 1 rfl

/-- C10 counterexample: with the closing brace as the (validated)
escape character, the input close-brace u open-brace 5 3 followed by a
run of three close-braces ends in an odd-length run of escape
characters, yet unescaping it does not equal unescaping the input
without its final character: the numeric escape consumes the first
brace of the trailing run, the decoder then reads the remaining two
braces as marker plus literal, and the final escape character does
produce output. -/
theorem trailing_escape_counterexample :
    (new '}' ['}'] [] (none : Option (Char → Bool))).isOk = true ∧
    unescape_to cfgB (['}', 'u', '{', '5', '3'] ++ List.replicate 3 '}') ≠
      unescape_to cfgB (['}', 'u', '{', '5', '3'] ++ List.replicate 2 '}') := by
  constructor
  · rfl
  · decide

end Escaping
